import Mathlib

/-!
Verification of the sphinx_thrift core: a shallow embedding of
`sphinx_thrift/thrift_ast.py` (JSON AST loader), `sphinx_thrift/domain.py`
(type-string renderer, signature registry, cross-reference resolver and
index generator), and a spec-modelled XML type-expression parser whose
implementation module is referenced by the test suite but not present in
the source tree.
-/

namespace SphinxThrift

/-- A JSON value, the input shape consumed by `thrift_ast.load_module`
(the file has already been read and decoded by `json.load`; file I/O is
outside the embedded core).  Object fields are kept in insertion order,
as Python dicts do. -/
inductive Json where
  | str (s : String)
  | num (n : Int)
  | bool (b : Bool)
  | null
  | arr (elems : List Json)
  | obj (fields : List (String × Json))

/-- Item access `j[k]` on a JSON object: the value at key `k`, `none`
modelling Python's `KeyError` (object keys are unique in decoded JSON). -/
def Json.getKey : Json → String → Option Json
  | .obj fields, k => (fields.find? (fun p => p.1 = k)).map Prod.snd
  | _, _ => none

def Json.asStr : Json → Option String
  | .str s => some s
  | _ => none

def Json.asInt : Json → Option Int
  | .num n => some n
  | _ => none

def Json.asBool : Json → Option Bool
  | .bool b => some b
  | _ => none

def Json.asArr : Json → Option (List Json)
  | .arr xs => some xs
  | _ => none

def Json.asObj : Json → Option (List (String × Json))
  | .obj fs => some fs
  | _ => none

/-- `j[k]` read as a string. -/
def getStr (j : Json) (k : String) : Option String :=
  (j.getKey k).bind Json.asStr

/-- `j[k]` read as an integer. -/
def getInt (j : Json) (k : String) : Option Int :=
  (j.getKey k).bind Json.asInt

/-- `j[k]` read as a boolean. -/
def getBool (j : Json) (k : String) : Option Bool :=
  (j.getKey k).bind Json.asBool

/-- `j[k]` read as an array. -/
def getArr (j : Json) (k : String) : Option (List Json) :=
  (j.getKey k).bind Json.asArr

/-! ## The JSON AST (`sphinx_thrift/thrift_ast.py`)

Dataclasses become structures; `parse_cls(Cls, j)`, i.e. `Cls(**j)`, becomes
a parser that requires every attribute without a default, fills defaulted
attributes, and rejects unknown keys (Python raises `TypeError` on an
unexpected keyword argument).  Failure of any kind is `none`. -/

structure Namespace where
  name : String
  language : String
deriving DecidableEq

/-- `Enum.members` is `Dict[str, int]` in the source: an insertion-ordered
name-to-value mapping. -/
structure Enum where
  name : String
  doc : String
  members : List (String × Int)
deriving DecidableEq

structure Typedef where
  name : String
  typeId : String
  doc : String
deriving DecidableEq

structure Field where
  key : Int
  name : String
  typeId : String
  required : String
  doc : String
  default : Option Json
  type : Option Json

structure Struct where
  name : String
  doc : String
  isException : Bool
  isUnion : Bool
  fields : List Field

structure Constant where
  name : String
  typeId : String
  value : Json
  doc : String
  type : Option Json

structure Function where
  name : String
  doc : String
  oneway : Bool
  returnTypeId : String
  arguments : List Field

structure Service where
  name : String
  doc : String
  functions : List Function

structure Module where
  name : String
  doc : String
  namespaces : List Namespace
  enums : List Enum
  typedefs : List Typedef
  structs : List Struct
  constants : List Constant
  services : List Service

/-- Keyword parameters accepted by the `Field` dataclass. -/
def fieldKeys : List String :=
  ["key", "name", "typeId", "required", "doc", "default", "type"]

/-- `j[k]` when the attribute has a dataclass default `d`: absent means the
default, present must have the expected (string) shape. -/
def getStrD (j : Json) (k : String) (d : String) : Option String :=
  match j.getKey k with
  | none => some d
  | some v => v.asStr

/-- `parse_cls(Field, j)`, i.e. `Field(**j)`: attributes `key`, `name`,
`typeId` and `required` have no default and must be present; `doc` defaults
to `""`, `default` and `type` to `None`; unknown keys are a `TypeError`. -/
def parseField (j : Json) : Option Field := do
  let fs ← j.asObj
  if (fs.map Prod.fst).all (fun k => fieldKeys.contains k) then
    let key ← getInt j "key"
    let name ← getStr j "name"
    let typeId ← getStr j "typeId"
    let required ← getStr j "required"
    let doc ← getStrD j "doc" ""
    pure ⟨key, name, typeId, required, doc, j.getKey "default", j.getKey "type"⟩
  else
    none

/-- Keyword parameters accepted by the `Typedef` dataclass. -/
def typedefKeys : List String := ["name", "typeId", "doc"]

/-- `parse_cls(Typedef, j)`: all three attributes are required. -/
def parseTypedef (j : Json) : Option Typedef := do
  let fs ← j.asObj
  if (fs.map Prod.fst).all (fun k => typedefKeys.contains k) then
    let name ← getStr j "name"
    let typeId ← getStr j "typeId"
    let doc ← getStr j "doc"
    pure ⟨name, typeId, doc⟩
  else
    none

/-- Keyword parameters accepted by the `Constant` dataclass. -/
def constantKeys : List String := ["name", "typeId", "value", "doc", "type"]

/-- `parse_cls(Constant, j)`: `name`, `typeId`, `value` required; `doc`
defaults to `""`, `type` to `None`. -/
def parseConstant (j : Json) : Option Constant := do
  let fs ← j.asObj
  if (fs.map Prod.fst).all (fun k => constantKeys.contains k) then
    let name ← getStr j "name"
    let typeId ← getStr j "typeId"
    let value ← j.getKey "value"
    let doc ← getStrD j "doc" ""
    pure ⟨name, typeId, value, doc, j.getKey "type"⟩
  else
    none

/-- One step of the dict comprehension
`{m['name']: m['value'] for m in j['members']}`: assigning to a key already
present updates its value in place (keeping its original position), a fresh
key is appended. -/
def dictInsert (d : List (String × Int)) (k : String) (v : Int) :
    List (String × Int) :=
  if d.any (fun p => p.1 = k) then
    d.map (fun p => if p.1 = k then (p.1, v) else p)
  else
    d ++ [(k, v)]

/-- The whole dict comprehension over the members array. -/
def dictOfPairs (pairs : List (String × Int)) : List (String × Int) :=
  pairs.foldl (fun d p => dictInsert d p.1 p.2) []

/-- The per-member item accesses `m['name']`, `m['value']` in `parse_enum`. -/
def extractMember (m : Json) : Option (String × Int) := do
  let n ← getStr m "name"
  let v ← getInt m "value"
  pure (n, v)

/-- `thrift_ast.parse_enum`. -/
def parse_enum (j : Json) : Option Enum := do
  let name ← getStr j "name"
  let doc ← getStr j "doc"
  let ms ← getArr j "members"
  let pairs ← ms.mapM extractMember
  pure ⟨name, doc, dictOfPairs pairs⟩

/-- `thrift_ast.parse_struct`. -/
def parse_struct (j : Json) : Option Struct := do
  let fs ← getArr j "fields"
  let fields ← fs.mapM parseField
  let name ← getStr j "name"
  let doc ← getStr j "doc"
  let isException ← getBool j "isException"
  let isUnion ← getBool j "isUnion"
  pure ⟨name, doc, isException, isUnion, fields⟩

/-- `thrift_ast.parse_function`: reads `name`, `doc` (via `j.get('doc', '')`),
`oneway`, `returnTypeId` and `arguments`; no other key of `j` is read. -/
def parse_function (j : Json) : Option Function := do
  let name ← getStr j "name"
  let doc ← getStrD j "doc" ""
  let oneway ← getBool j "oneway"
  let returnTypeId ← getStr j "returnTypeId"
  let args ← getArr j "arguments"
  let arguments ← args.mapM parseField
  pure ⟨name, doc, oneway, returnTypeId, arguments⟩

/-- `thrift_ast.parse_service`. -/
def parse_service (j : Json) : Option Service := do
  let name ← getStr j "name"
  let doc ← getStrD j "doc" ""
  let fns ← getArr j "functions"
  let functions ← fns.mapM parse_function
  pure ⟨name, doc, functions⟩

/-- `thrift_ast.load_module`, after `json.load`: the reading of the file and
JSON decoding are external I/O; the embedded function consumes the decoded
tree.  Note the source's loop `for lang, name in j['namespaces'].items()`
rebinds the local `name`, so when at least one namespace is present the
`Module` is constructed with the last namespace's name instead of
`j['name']`; the embedding reproduces this. -/
def load_module (j : Json) : Option Module :=
  match getStr j "name" with
  | none => none
  | some name0 =>
  match getStr j "doc" with
  | none => none
  | some doc =>
  match (j.getKey "namespaces").bind Json.asObj with
  | none => none
  | some nsFields =>
  match nsFields.mapM
      (fun p => (p.2.asStr).bind (fun v => some (Namespace.mk v p.1))) with
  | none => none
  | some namespaces =>
  match getArr j "typedefs" with
  | none => none
  | some tds =>
  match tds.mapM parseTypedef with
  | none => none
  | some typedefs =>
  match getArr j "enums" with
  | none => none
  | some es =>
  match es.mapM parse_enum with
  | none => none
  | some enums =>
  match getArr j "structs" with
  | none => none
  | some ss =>
  match ss.mapM parse_struct with
  | none => none
  | some structs =>
  match getArr j "constants" with
  | none => none
  | some cs =>
  match cs.mapM parseConstant with
  | none => none
  | some constants =>
  match getArr j "services" with
  | none => none
  | some svs =>
  match svs.mapM parse_service with
  | none => none
  | some services =>
  some ⟨((namespaces.map Namespace.name).getLast?).getD name0, doc, namespaces,
    enums, typedefs, structs, constants, services⟩

/-- The fixed basic-type keywords, as listed in `test/test_parser.py`. -/
def basic_types : List String :=
  ["bool", "byte", "i8", "i16", "i32", "i64", "double", "string", "binary"]

/-! ## Signatures, registry and resolver (`sphinx_thrift/domain.py`) -/

/-- `domain.Signature`: the registry key of one documentable entity. -/
structure Signature where
  kind : String
  name : String
  module : Option String
deriving DecidableEq

/-- Python string interpolation of the optional module: `None` prints as
the four-letter word `"None"` in an f-string. -/
def moduleStr : Option String → String
  | some m => m
  | none => "None"

/-- `f'{sig.module}.{sig.name}'`, the qualified name used by the resolver. -/
def qualName (sig : Signature) : String :=
  moduleStr sig.module ++ "." ++ sig.name

/-- `Signature.__str__`: `f'{self.module}.{self.name}:{self.kind}'`. -/
def strSig (sig : Signature) : String :=
  qualName sig ++ ":" ++ sig.kind

/-- The value stored in `env.domaindata['thrift']['objects']`:
`(docname, objtype, str(name))`. -/
structure ObjEntry where
  docname : String
  objtype : String
  display : String
deriving DecidableEq

/-- The result tuple `(obj[0], f'{sig.module}.{sig.name}:{sig.kind}')`
produced by `find_target` for one registry item. -/
def refTuple (sig : Signature) (obj : ObjEntry) : String × String :=
  (obj.docname, strSig sig)

/-- The loop of `ThriftXRefRole.find_target`: scan the registry items in
order; an exact qualified-name match returns at once; otherwise a bare
`sig.name` match is appended to `moduleless_results`. -/
def findLoop (target : String) :
    List (Signature × ObjEntry) → List (String × String) →
    Option (String × String) × List (String × String)
  | [], acc => (none, acc)
  | (sig, obj) :: rest, acc =>
    if qualName sig = target then
      (some (refTuple sig obj), acc)
    else if sig.name = target then
      findLoop target rest (acc ++ [refTuple sig obj])
    else
      findLoop target rest acc

/-- The warning lines logged when a bare target is ambiguous. -/
def ambiguousMsg (target : String) (ms : List (String × String)) :
    List String :=
  (target ++ " is ambiguous. Possible resolutions:") ::
    ms.map (fun t => "   " ++ t.1 ++ ": " ++ t.2)

/-- `ThriftXRefRole.find_target`.  The first component is the returned
location (or `None`), the second the warning lines sent to the logger. -/
def find_target (typ target : String) (objects : List (Signature × ObjEntry)) :
    Option (String × String) × List String :=
  let target := if typ = "module" then "None." ++ target else target
  match findLoop target objects [] with
  | (some r, _) => (some r, [])
  | (none, ms) =>
    match ms with
    | [m] => (some m, [])
    | [] => (none, [])
    | _ => (none, ambiguousMsg target ms)

/-- The fallback candidates: every registry entry whose bare local name
equals the target, in registry scan order. -/
def moduleless (target : String) (objects : List (Signature × ObjEntry)) :
    List (String × String) :=
  (objects.filter (fun p => p.1.name = target)).map
    (fun p => refTuple p.1 p.2)

/-- The build-time state touched by `ThriftObject.add_target_and_index`:
the ids known to the current document (`self.state.document.ids`, to which
`note_explicit_target` adds the freshly appended id) and the domain's
object registry `env.domaindata['thrift']['objects']` (a Python dict,
embedded as an insertion-ordered association list). -/
structure BuildState where
  docIds : List Signature
  objects : List (Signature × ObjEntry)
deriving DecidableEq

/-- Assignment into the registry dict: an existing key has its value
replaced in place, a fresh key is appended. -/
def objInsert (d : List (Signature × ObjEntry)) (k : Signature)
    (v : ObjEntry) : List (Signature × ObjEntry) :=
  if d.any (fun p => p.1 = k) then
    d.map (fun p => if p.1 = k then (p.1, v) else p)
  else
    d ++ [(k, v)]

/-- What `add_target_and_index` did to the signature node: whether the
name/id were appended and the node registered as an explicit target, and
the value assigned to `signode['first']` if any. -/
structure SignodeEffect where
  registered : Bool
  first : Option Bool
deriving DecidableEq

/-- `ThriftObject.add_target_and_index`.  `names` is the directive's
`self.names` at call time; `docname` and `objtype` come from the build
environment and the directive. -/
def add_target_and_index (docname objtype : String) (names : List Signature)
    (name : Signature) (st : BuildState) : BuildState × SignodeEffect :=
  if name ∈ st.docIds then
    (st, ⟨false, none⟩)
  else
    (⟨st.docIds ++ [name],
      objInsert st.objects name ⟨docname, objtype, strSig name⟩⟩,
     ⟨true, some names.isEmpty⟩)

/-! ## Index generation (`ThriftIndex.generate`) -/

/-- One index row `[name.name, 0, docname, signature, objtype, '', '']`.
The three constant components (`subtype = 0` and the two empty strings)
are fixed by the source and omitted from the embedding; the varying
components are kept. -/
structure Row where
  name : String
  docname : String
  signature : String
  objtype : String
deriving DecidableEq

/-- `t[0][0].upper()`: the upper-cased first character of the row's name.
Total stand-in used under the guard that every name is nonempty (an empty
name makes the Python expression raise `IndexError`, which `generate`
models by returning `none`). -/
def rowKey (r : Row) : Char :=
  Char.toUpper (r.name.data.headD ' ')

/-- `itertools.groupby(entries, key=...)`: splits the list into maximal
runs of consecutive rows sharing a key. -/
def groupAux (k : Char) (acc : List Row) : List Row → List (Char × List Row)
  | [] => [(k, acc.reverse)]
  | r :: rest =>
    if rowKey r = k then
      groupAux k (r :: acc) rest
    else
      (k, acc.reverse) :: groupAux (rowKey r) [r] rest

def groupConsec : List Row → List (Char × List Row)
  | [] => []
  | r :: rest => groupAux (rowKey r) [r] rest

/-- `content[key].extend(group)` on an existing key: the single entry with
that key grows at its place. -/
def extendAt (k : Char) (g : List Row) :
    List (Char × List Row) → List (Char × List Row)
  | [] => []
  | (k', g') :: rest =>
    if k' = k then (k', g' ++ g) :: rest
    else (k', g') :: extendAt k g rest

def hasKey (k : Char) (c : List (Char × List Row)) : Bool :=
  c.any (fun p => p.1 = k)

/-- The loop body `if key not in content: content[key] = [];
content[key].extend(group)` on the insertion-ordered dict. -/
def dictExtend (c : List (Char × List Row)) (k : Char) (g : List Row) :
    List (Char × List Row) :=
  if hasKey k c then extendAt k g c else c ++ [(k, g)]

/-- The content dict after the grouping loop. -/
def buildContent (rows : List Row) : List (Char × List Row) :=
  (groupConsec rows).foldl (fun c p => dictExtend c p.1 p.2) []

/-- `sorted(content.items(), key=lambda t: t[0])`: ascending by the key
character (the keys of a dict are distinct, so any sort produces the one
sorted arrangement). -/
def insSorted (p : Char × List Row) :
    List (Char × List Row) → List (Char × List Row)
  | [] => [p]
  | q :: rest => if p.1 ≤ q.1 then p :: q :: rest else q :: insSorted p rest

def sortContent : List (Char × List Row) → List (Char × List Row)
  | [] => []
  | p :: rest => insSorted p (sortContent rest)

/-- `ThriftIndex.generate` (the grouping/sorting pipeline; the boolean
second component of the Python return value is the constant `False`).
Indexing `t[0][0]` of an empty name raises, modelled as `none`. -/
def generate (rows : List Row) : Option (List (Char × List Row)) :=
  if rows.all (fun r => !r.name.isEmpty) then
    some (sortContent (buildContent rows))
  else
    none

/-! ## The rendering-side type-string parser (`domain.parse_type`)

`parse_type` works on the characters of the type name, so the embedding
uses `List Char`.  The two anchored regular expressions are embedded
exactly, including the Python semantics of `.` (which does not match a
newline) and of `$` (which also matches just before one final newline),
and the greediness of `(.*)`, which makes `map_re` split at the last
comma of the middle. -/

/-- `$` in a Python non-multiline pattern also matches before a single
final newline; matching `...>$` therefore first discards one trailing
newline if present. -/
def dropFinalNewline (s : List Char) : List Char :=
  if s.getLast? = some '\n' then s.dropLast else s

/-- `list_re.match(s)` for `^(list|set)<(.*)>$`: on success, the matched
keyword (`m.group(1)`) and the middle (`m.group(2)`).  `(.*)` cannot
contain a newline. -/
def listCore (w : List Char) (mid : List Char) :
    Option (List Char × List Char) :=
  if mid.contains '\n' then none else some (w, mid)

def listMatch (s : List Char) : Option (List Char × List Char) :=
  if "list<".toList.isPrefixOf (dropFinalNewline s)
      && ((dropFinalNewline s).getLast? == some '>') then
    listCore "list".toList (((dropFinalNewline s).drop 5).dropLast)
  else if "set<".toList.isPrefixOf (dropFinalNewline s)
      && ((dropFinalNewline s).getLast? == some '>') then
    listCore "set".toList (((dropFinalNewline s).drop 4).dropLast)
  else
    none

/-- The split of a middle `g1 ++ [','] ++ g2` at its last comma, the
split produced by the greedy first group of `^map<(.*),(.*)>$`; `none`
when no comma occurs. -/
def splitLastComma : List Char → Option (List Char × List Char)
  | [] => none
  | c :: rest =>
    match splitLastComma rest with
    | some (a, b) => some (c :: a, b)
    | none => if c = ',' then some ([], rest) else none

/-- `map_re.match(s)` for `^map<(.*),(.*)>$`: on success the key and value
groups. -/
def mapCore (mid : List Char) : Option (List Char × List Char) :=
  if mid.contains '\n' then none else splitLastComma mid

def mapMatch (s : List Char) : Option (List Char × List Char) :=
  if "map<".toList.isPrefixOf (dropFinalNewline s)
      && ((dropFinalNewline s).getLast? == some '>') then
    mapCore (((dropFinalNewline s).drop 4).dropLast)
  else
    none

/-- A node produced by `parse_type`: either the result of the caller's
`inner_node` constructor, or a `pending_xref` (with the fixed attributes
`refdomain='thrift'`, `refexplicit=False`, `reftype='field'`) wrapping the
`inner_node` of the type name and carrying it as `reftarget`. -/
inductive PNode (α : Type) where
  | inner (a : α)
  | xref (child : α) (reftarget : List Char)
deriving DecidableEq

/-- `typename.replace(' ', '')`. -/
def stripSpaces (s : List Char) : List Char :=
  s.filter (fun c => !(c == ' '))

theorem stripSpaces_length_le (s : List Char) :
    (stripSpaces s).length ≤ s.length :=
  List.length_filter_le _ s

theorem dropFinalNewline_length_le (s : List Char) :
    (dropFinalNewline s).length ≤ s.length := by
  unfold dropFinalNewline
  split
  · exact (List.length_dropLast s) ▸ Nat.sub_le _ _
  · exact Nat.le_refl _

theorem isPrefixOf_length_le {s t : List Char} (h : s.isPrefixOf t = true) :
    s.length ≤ t.length :=
  (List.isPrefixOf_iff_prefix.mp h).length_le

theorem listCore_eq_some {w mid w' mid' : List Char}
    (h : listCore w mid = some (w', mid')) : mid' = mid := by
  unfold listCore at h
  split at h
  · exact absurd h (by simp)
  · injection h with h'
    injection h' with h1 h2
    exact h2.symm

theorem listMatch_length {s w mid : List Char}
    (h : listMatch s = some (w, mid)) : mid.length < s.length := by
  have hlen := dropFinalNewline_length_le s
  unfold listMatch at h
  split at h
  case isTrue hcond =>
    have hb := Bool.and_eq_true_iff.mp hcond
    have hpre : 4 ≤ (dropFinalNewline s).length := by
      have := isPrefixOf_length_le hb.1
      simpa using Nat.le_trans (by norm_num) this
    have hmid := listCore_eq_some h
    rw [hmid, List.length_dropLast, List.length_drop]
    omega
  case isFalse =>
    split at h
    case isTrue hcond =>
      have hb := Bool.and_eq_true_iff.mp hcond
      have hpre : 4 ≤ (dropFinalNewline s).length := by
        have := isPrefixOf_length_le hb.1
        simpa using this
      have hmid := listCore_eq_some h
      rw [hmid, List.length_dropLast, List.length_drop]
      omega
    case isFalse => exact absurd h (by simp)

theorem splitLastComma_length {s a b : List Char}
    (h : splitLastComma s = some (a, b)) :
    a.length + b.length + 1 = s.length := by
  induction s generalizing a b with
  | nil => simp [splitLastComma] at h
  | cons c rest ih =>
    unfold splitLastComma at h
    split at h
    · rename_i a' b' heq
      injection h with h'
      injection h' with h1 h2
      subst h1; subst h2
      have := ih heq
      simp [List.length_cons]
      omega
    · split at h
      · injection h with h'
        injection h' with h1 h2
        subst h1; subst h2
        simp [List.length_cons]
      · exact absurd h (by simp)

theorem mapCore_eq_some {mid a b : List Char}
    (h : mapCore mid = some (a, b)) : splitLastComma mid = some (a, b) := by
  unfold mapCore at h
  split at h
  · exact absurd h (by simp)
  · exact h

theorem mapMatch_length {s a b : List Char}
    (h : mapMatch s = some (a, b)) :
    a.length < s.length ∧ b.length < s.length := by
  unfold mapMatch at h
  split at h
  case isTrue hcond =>
    have hb := Bool.and_eq_true_iff.mp hcond
    have hpre : 4 ≤ (dropFinalNewline s).length := by
      have := isPrefixOf_length_le hb.1
      simpa using this
    have hlen := dropFinalNewline_length_le s
    have hs := splitLastComma_length (mapCore_eq_some h)
    rw [List.length_dropLast, List.length_drop] at hs
    omega
  case isFalse => exact absurd h (by simp)

/-- `domain.parse_type`, parametric in the caller's `inner_node`
constructor `f`.  The recursive calls re-strip spaces exactly as the
source function does on entry. -/
def parse_type (t : List Char) (f : List Char → α) : List (PNode α) :=
  match h1 : listMatch (stripSpaces t) with
  | some (w, mid) =>
    [PNode.inner (f (w ++ ['<']))] ++ parse_type mid f
      ++ [PNode.inner (f ['>'])]
  | none =>
    match h2 : mapMatch (stripSpaces t) with
    | some (k, v) =>
      [PNode.inner (f "map<".toList)] ++ parse_type k f
        ++ [PNode.inner (f [',', ' '])] ++ parse_type v f
        ++ [PNode.inner (f ['>'])]
    | none => [PNode.xref (f (stripSpaces t)) (stripSpaces t)]
termination_by t.length
decreasing_by
  · exact Nat.lt_of_lt_of_le (listMatch_length h1) (stripSpaces_length_le t)
  · exact Nat.lt_of_lt_of_le (mapMatch_length h2).1 (stripSpaces_length_le t)
  · exact Nat.lt_of_lt_of_le (mapMatch_length h2).2 (stripSpaces_length_le t)

/-! ## The IR type-expression parser -/

/-- Modelled from the spec: the implementation module `sphinx_thrift/parser.py`
holding the XML-IR type-expression parser is not present in the source tree
(only its test suite, `test/test_parser.py`, is); this is the IR type node
of spec §4.1 — a `type` attribute, the `type-module`/`type-id` attributes
used by references, and the nested `keyType`/`valueType` children used by
compound types. -/
inductive TypeNode where
  | node (ty : String) (typeModule : Option String) (typeId : Option String)
      (keyChild : Option TypeNode) (valueChild : Option TypeNode)

/-- Modelled from the spec: the typed `Type` value of spec §3 — atomic,
list, set, map, reference. -/
inductive ThriftType where
  | atomic (name : String)
  | list (elem : ThriftType)
  | set (elem : ThriftType)
  | map (key : ThriftType) (value : ThriftType)
  | reference (module : Option String) (name : String)
deriving DecidableEq

/-- Modelled from the spec: the type-expression parser of spec §4.1.
`list`/`set` need exactly one `valueType` child and wrap the recursively
parsed child; `map` parses its `keyType` and `valueType` children; `id`
reads `type-module` and `type-id`; any other `type` value must be one of
the fixed basic keywords, else a `MalformedInput` error carrying the raw
value.  A missing required child or attribute is likewise
`MalformedInput`. -/
def parseTypeNode : TypeNode → Except String ThriftType
  | .node "list" _ _ _ (some c) => (parseTypeNode c).map ThriftType.list
  | .node "list" _ _ _ none => .error "missing valueType"
  | .node "set" _ _ _ (some c) => (parseTypeNode c).map ThriftType.set
  | .node "set" _ _ _ none => .error "missing valueType"
  | .node "map" _ _ (some k) (some v) =>
    (parseTypeNode k).bind (fun pk =>
      (parseTypeNode v).map (fun pv => ThriftType.map pk pv))
  | .node "map" _ _ _ _ => .error "missing keyType or valueType"
  | .node "id" tm (some n) _ _ => .ok (ThriftType.reference tm n)
  | .node "id" _ none _ _ => .error "missing type-id"
  | .node ty _ _ _ _ =>
    if basic_types.contains ty then .ok (ThriftType.atomic ty)
    else .error ty
termination_by n => sizeOf n
decreasing_by
  all_goals simp
  all_goals omega

/-! ## Concrete inputs used by counterexamples and witnesses -/

/-- An enum member element carrying a `doc` attribute. -/
def enumMemberWithDoc : Json :=
  .obj [("name", .str "SUBTRACT"), ("value", .num 2),
        ("doc", .str "doc of SUBTRACT")]

/-- The same member element without the `doc` attribute. -/
def enumMemberNoDoc : Json :=
  .obj [("name", .str "SUBTRACT"), ("value", .num 2)]

/-- An IR enum element whose second member carries a doc string. -/
def enumWithMemberDoc : Json :=
  .obj [("name", .str "Operation"), ("doc", .str "enum doc"),
        ("members", .arr [.obj [("name", .str "ADD"), ("value", .num 1)],
                          enumMemberWithDoc])]

/-- The same IR enum element with the member doc removed. -/
def enumNoMemberDoc : Json :=
  .obj [("name", .str "Operation"), ("doc", .str "enum doc"),
        ("members", .arr [.obj [("name", .str "ADD"), ("value", .num 1)],
                          enumMemberNoDoc])]

/-- A field element with no `required` attribute (the shape of the field
element in `test_field_parser`). -/
def fieldMissingRequired : Json :=
  .obj [("key", .num 3), ("name", .str "op"), ("typeId", .str "Operation")]

/-- The same field element with a `required` attribute supplied. -/
def fieldWithRequired : Json :=
  .obj [("key", .num 3), ("name", .str "op"), ("typeId", .str "Operation"),
        ("required", .str "optional")]

/-- A function element declaring one thrown exception. -/
def methodWithThrows : Json :=
  .obj [("name", .str "zip"), ("doc", .str "oneway doc"),
        ("oneway", .bool true), ("returnTypeId", .str "void"),
        ("arguments", .arr []),
        ("exceptions", .arr [.obj [("key", .num 1), ("name", .str "ouch"),
          ("typeId", .str "InvalidOperation"),
          ("required", .str "required")]])]

/-- The same function element with the throws clause removed. -/
def methodNoThrows : Json :=
  .obj [("name", .str "zip"), ("doc", .str "oneway doc"),
        ("oneway", .bool true), ("returnTypeId", .str "void"),
        ("arguments", .arr [])]

/-- A complete module input whose only typedef carries the unrecognized
type value `"fancytype"`. -/
def moduleBogusType : Json :=
  .obj [("name", .str "example"), ("doc", .str "module doc"),
        ("namespaces", .obj []),
        ("typedefs", .arr [.obj [("name", .str "T"),
          ("typeId", .str "fancytype"), ("doc", .str "d")]]),
        ("enums", .arr []), ("structs", .arr []),
        ("constants", .arr []), ("services", .arr [])]

/-- A struct element whose single field lacks the `required` attribute. -/
def structBadField : Json :=
  .obj [("name", .str "S"), ("doc", .str "sd"),
        ("isException", .bool false), ("isUnion", .bool false),
        ("fields", .arr [fieldMissingRequired])]

/-- A complete module input containing `structBadField`. -/
def moduleBadField : Json :=
  .obj [("name", .str "example"), ("doc", .str "module doc"),
        ("namespaces", .obj []),
        ("typedefs", .arr []), ("enums", .arr []),
        ("structs", .arr [structBadField]),
        ("constants", .arr []), ("services", .arr [])]

/-- A module input missing its module-level `doc` attribute. -/
def moduleNoDoc : Json :=
  .obj [("name", .str "example"), ("namespaces", .obj []),
        ("typedefs", .arr []), ("enums", .arr []), ("structs", .arr []),
        ("constants", .arr []), ("services", .arr [])]

/-- A well-formed IR enum element with two members of distinct names. -/
def enumTwoMembers : Json :=
  .obj [("name", .str "Op"), ("doc", .str "d"),
        ("members", .arr [.obj [("name", .str "ADD"), ("value", .num 1)],
                          .obj [("name", .str "SUB"), ("value", .num 2)]])]

/-! ## Helper lemmas -/

theorem some_bind {α β : Type} (a : α) (f : α → Option β) :
    (some a >>= f) = f a := rfl

theorem none_bind {α β : Type} (f : α → Option β) :
    ((none : Option α) >>= f) = none := rfl

theorem bind_const_none {α β : Type} (x : Option α) :
    (x >>= fun _ => (none : Option β)) = none := by
  cases x <;> rfl

/-- A list `mapM` over `Option` fails as soon as one element fails. -/
theorem mapM_none {α β : Type} (f : α → Option β) {xs : List α} {x : α}
    (hx : x ∈ xs) (hf : f x = none) : xs.mapM f = none := by
  induction xs with
  | nil => cases hx
  | cons y ys ih =>
    rw [List.mapM_cons]
    cases hx with
    | head => rw [hf]; rfl
    | tail _ hx' =>
      cases hy : f y
      · rfl
      · rw [some_bind, ih hx', none_bind]

/-- A malformed member element (for instance one missing `name` or
`value`) makes `parse_enum` of the containing enum element fail. -/
theorem parse_enum_member_fail (x : Json) (ms : List Json) (m : Json)
    (hm : getArr x "members" = some ms) (hmm : m ∈ ms)
    (hf : extractMember m = none) : parse_enum x = none := by
  have h := mapM_none extractMember hmm hf
  simp only [parse_enum, hm, h, some_bind, none_bind, bind_const_none]

/-- A malformed field element (for instance one missing the `required`
attribute) makes `parse_struct` of the containing struct element fail. -/
theorem parse_struct_field_fail (x : Json) (fs : List Json) (f : Json)
    (hf : getArr x "fields" = some fs) (hmf : f ∈ fs)
    (hff : parseField f = none) : parse_struct x = none := by
  have h := mapM_none parseField hmf hff
  simp only [parse_struct, hf, h, some_bind, none_bind, bind_const_none]

/-- Inserting a fresh key appends it. -/
theorem dictInsert_fresh (d : List (String × Int)) (k : String) (v : Int)
    (h : ∀ q ∈ d, q.1 ≠ k) : dictInsert d k v = d ++ [(k, v)] := by
  unfold dictInsert
  rw [if_neg]
  simp only [List.any_eq_true, not_exists, not_and]
  intro q hq
  simp [h q hq]

/-- Folding the dict comprehension over pairs with fresh, pairwise distinct
keys appends them in order. -/
theorem foldl_dictInsert (pairs : List (String × Int)) :
    ∀ (d : List (String × Int)),
    (∀ p ∈ pairs, ∀ q ∈ d, q.1 ≠ p.1) →
    (pairs.map Prod.fst).Nodup →
    pairs.foldl (fun d p => dictInsert d p.1 p.2) d = d ++ pairs := by
  induction pairs with
  | nil => intro d _ _; simp
  | cons p rest ih =>
    intro d hdisj hnd
    rw [List.foldl_cons, dictInsert_fresh d p.1 p.2
      (fun q hq => hdisj p (List.mem_cons_self p rest) q hq)]
    rw [List.map_cons, List.nodup_cons] at hnd
    rw [ih (d ++ [(p.1, p.2)]) ?_ hnd.2]
    · simp
    · intro r hr q hq
      rcases List.mem_append.mp hq with hq | hq
      · exact hdisj r (List.mem_cons_of_mem p hr) q hq
      · have : q = (p.1, p.2) := by simpa using hq
        subst this
        intro hcontra
        exact hnd.1 (hcontra ▸ List.mem_map_of_mem Prod.fst hr)

/-- The dict comprehension is the identity on pairs with distinct names. -/
theorem dictOfPairs_nodup {pairs : List (String × Int)}
    (h : (pairs.map Prod.fst).Nodup) : dictOfPairs pairs = pairs := by
  unfold dictOfPairs
  rw [foldl_dictInsert pairs [] (by intro p _ q hq; cases hq) h]
  simp

/-! ## Theorems -/

theorem stripSpaces_idem (s : List Char) :
    stripSpaces (stripSpaces s) = stripSpaces s := by
  simp [stripSpaces, List.filter_filter]

/-- C10: for every type-name string and every inner-node constructor, the
rendering-side type parser produces the same node list for the string as
for the string with every space character removed: `parse_type` strips all
spaces on entry, so space placement can never change the rendered node
sequence. -/
theorem parse_type_space_invariant {α : Type} (t : List Char)
    (f : List Char → α) :
    parse_type (stripSpaces t) f = parse_type t f := by
  conv_lhs => rw [parse_type.eq_def]
  conv_rhs => rw [parse_type.eq_def]
  rw [stripSpaces_idem]

/-- C9: the type-expression parser recurses structurally on compound type
nodes at unbounded nesting depth: every `list` node with a `valueType`
child — whatever that child is, in particular another `list` node — is
parsed by recursively parsing the child and wrapping the result; and the
IR node for `list<list<double>>` parses to
`List(List(Atomic("double")))`. -/
theorem parseTypeNode_structural_recursion :
    (∀ (tm ti : Option String) (kc : Option TypeNode) (c : TypeNode),
      parseTypeNode (TypeNode.node "list" tm ti kc (some c))
        = (parseTypeNode c).map ThriftType.list)
    ∧ parseTypeNode (TypeNode.node "list" none none none (some
        (TypeNode.node "list" none none none (some
          (TypeNode.node "double" none none none none)))))
      = Except.ok (ThriftType.list (ThriftType.list
          (ThriftType.atomic "double"))) := by
  have hstep : ∀ (tm ti : Option String) (kc : Option TypeNode)
      (c : TypeNode),
      parseTypeNode (TypeNode.node "list" tm ti kc (some c))
        = (parseTypeNode c).map ThriftType.list := by
    intro tm ti kc c
    rw [parseTypeNode]
  have hleaf : parseTypeNode (TypeNode.node "double" none none none none)
      = Except.ok (ThriftType.atomic "double") := by
    rw [parseTypeNode] <;> simp [basic_types]
  refine ⟨hstep, ?_⟩
  rw [hstep, hstep, hleaf]
  rfl

/-- C4 (counterexample): the built `Enum` record does not carry per-member
docs: two IR enum elements that differ only in a member's `doc` attribute
build the same `Enum`, and what is built is the name-to-value mapping
without any member doc. -/
theorem parse_enum_drops_member_doc :
    parse_enum enumWithMemberDoc = parse_enum enumNoMemberDoc
    ∧ getStr enumMemberWithDoc "doc" = some "doc of SUBTRACT"
    ∧ getStr enumMemberNoDoc "doc" = none
    ∧ parse_enum enumWithMemberDoc
        = some ⟨"Operation", "enum doc", [("ADD", 1), ("SUBTRACT", 2)]⟩ :=
  ⟨rfl, rfl, rfl, rfl⟩

/-- C4 (amended): for every IR enum element whose members carry pairwise
distinct names, the built `Enum` record holds the member (name, value)
pairs in declaration order with the values exactly as emitted — but as a
name-to-value mapping, with per-member docs discarded. -/
theorem parse_enum_members_order_values (j : Json) (nm dc : String)
    (ms : List Json) (pairs : List (String × Int))
    (hn : getStr j "name" = some nm)
    (hd : getStr j "doc" = some dc)
    (hm : getArr j "members" = some ms)
    (hp : ms.mapM extractMember = some pairs)
    (hnd : (pairs.map Prod.fst).Nodup) :
    parse_enum j = some ⟨nm, dc, pairs⟩ := by
  simp only [parse_enum, hn, hd, hm, hp, some_bind, dictOfPairs_nodup hnd]
  rfl

/-- C4 (witness): the amended statement at a concrete two-member enum. -/
theorem parse_enum_members_order_values_witness :
    parse_enum enumTwoMembers = some ⟨"Op", "d", [("ADD", 1), ("SUB", 2)]⟩ :=
  parse_enum_members_order_values enumTwoMembers "Op" "d" _ _
    rfl rfl rfl rfl (by decide)

/-- C5 (code bug): a field element with no `required` attribute does not
build a `Field` with `required = "required"`: `Field(**j)` raises
(`parseField` returns `none`), while the same element with a `required`
attribute supplied builds fine.  The repository's own test suite
constructs `ast.Field` without `required` and expects it to succeed. -/
theorem parseField_missing_required_fails :
    parseField fieldMissingRequired = none
    ∧ parseField fieldWithRequired
        = some ⟨3, "op", "Operation", "optional", "", none, none⟩ :=
  ⟨rfl, rfl⟩

/-- C6 (counterexample): the built `Function` record carries no declared
exceptions: a function element with a throws clause and the same element
without it build the same `Function`. -/
theorem parse_function_ignores_throws_cex :
    parse_function methodWithThrows = parse_function methodNoThrows
    ∧ (methodWithThrows.getKey "exceptions").isSome = true
    ∧ methodNoThrows.getKey "exceptions" = none :=
  ⟨rfl, rfl, rfl⟩

/-- C6 (amended): the built `Function` record carries exactly name, doc,
oneway flag, return type id and ordered arguments; it is determined by
those five attributes alone, so the declared exceptions of the input are
not captured. -/
theorem parse_function_throws_not_captured (j1 j2 : Json)
    (hname : j1.getKey "name" = j2.getKey "name")
    (hdoc : j1.getKey "doc" = j2.getKey "doc")
    (honeway : j1.getKey "oneway" = j2.getKey "oneway")
    (hret : j1.getKey "returnTypeId" = j2.getKey "returnTypeId")
    (hargs : j1.getKey "arguments" = j2.getKey "arguments") :
    parse_function j1 = parse_function j2 := by
  simp [parse_function, getStr, getStrD, getBool, getArr,
    hname, hdoc, honeway, hret, hargs]

/-- C6 (witness): the amended statement at the concrete pair of function
elements differing only in the throws clause. -/
theorem parse_function_throws_not_captured_witness :
    parse_function methodWithThrows = parse_function methodNoThrows :=
  parse_function_throws_not_captured methodWithThrows methodNoThrows
    rfl rfl rfl rfl rfl

/-- C7 (counterexample): an unrecognized `type` value does not abort the
module load: a complete module whose typedef carries the type value
`"fancytype"` — not a basic-type keyword — loads to a `Module`. -/
theorem load_module_accepts_unknown_type :
    (load_module moduleBogusType).isSome = true
    ∧ (load_module moduleBogusType).map (fun m => m.typedefs.map Typedef.typeId)
        = some ["fancytype"]
    ∧ basic_types.contains "fancytype" = false :=
  ⟨rfl, rfl, rfl⟩

/-- C7 (amended): a module input containing an element missing a required
attribute aborts construction — `load_module` returns no `Module` at all,
the failure propagates, and no partially built module is exposed.  This
holds for a missing module-level `name`, `doc` or `namespaces` attribute,
for any failing element of the typedefs, enums, structs, constants or
services arrays, and in particular for an enum element with a malformed
member or a struct element with a malformed field.  (Type strings,
however, are not validated by this loader.) -/
theorem load_module_malformed_aborts (j : Json) :
    (getStr j "name" = none → load_module j = none)
    ∧ (getStr j "doc" = none → load_module j = none)
    ∧ ((j.getKey "namespaces").bind Json.asObj = none → load_module j = none)
    ∧ (∀ xs x, x ∈ xs → getArr j "typedefs" = some xs →
        parseTypedef x = none → load_module j = none)
    ∧ (∀ xs x, x ∈ xs → getArr j "enums" = some xs →
        parse_enum x = none → load_module j = none)
    ∧ (∀ xs x, x ∈ xs → getArr j "structs" = some xs →
        parse_struct x = none → load_module j = none)
    ∧ (∀ xs x, x ∈ xs → getArr j "constants" = some xs →
        parseConstant x = none → load_module j = none)
    ∧ (∀ xs x, x ∈ xs → getArr j "services" = some xs →
        parse_service x = none → load_module j = none)
    ∧ (∀ xs x ms m, x ∈ xs → getArr j "enums" = some xs →
        getArr x "members" = some ms → m ∈ ms →
        extractMember m = none → load_module j = none)
    ∧ (∀ xs x fs f, x ∈ xs → getArr j "structs" = some xs →
        getArr x "fields" = some fs → f ∈ fs →
        parseField f = none → load_module j = none) := by
  have henums : ∀ xs x, x ∈ xs → getArr j "enums" = some xs →
      parse_enum x = none → load_module j = none := by
    intro xs x hmem hs hfail
    have hmapM : xs.mapM parse_enum = none := mapM_none parse_enum hmem hfail
    unfold load_module
    simp only [hs, hmapM]
    repeat' split
    all_goals rfl
  have hstructs : ∀ xs x, x ∈ xs → getArr j "structs" = some xs →
      parse_struct x = none → load_module j = none := by
    intro xs x hmem hs hfail
    have hmapM : xs.mapM parse_struct = none :=
      mapM_none parse_struct hmem hfail
    unfold load_module
    simp only [hs, hmapM]
    repeat' split
    all_goals rfl
  refine ⟨?_, ?_, ?_, ?_, henums, hstructs, ?_, ?_, ?_, ?_⟩
  · intro h
    unfold load_module
    simp only [h]
  · intro h
    unfold load_module
    simp only [h]
    repeat' split
    all_goals rfl
  · intro h
    unfold load_module
    simp only [h]
    repeat' split
    all_goals rfl
  · intro xs x hmem hs hfail
    have hmapM : xs.mapM parseTypedef = none :=
      mapM_none parseTypedef hmem hfail
    unfold load_module
    simp only [hs, hmapM]
    repeat' split
    all_goals rfl
  · intro xs x hmem hs hfail
    have hmapM : xs.mapM parseConstant = none :=
      mapM_none parseConstant hmem hfail
    unfold load_module
    simp only [hs, hmapM]
    repeat' split
    all_goals rfl
  · intro xs x hmem hs hfail
    have hmapM : xs.mapM parse_service = none :=
      mapM_none parse_service hmem hfail
    unfold load_module
    simp only [hs, hmapM]
    repeat' split
    all_goals rfl
  · intro xs x ms m hmem hs hm hmm hf
    exact henums xs x hmem hs (parse_enum_member_fail x ms m hm hmm hf)
  · intro xs x fs f hmem hs hxf hmf hff
    exact hstructs xs x hmem hs (parse_struct_field_fail x fs f hxf hmf hff)

/-- C7 (witness): the amended statement applied at a concrete module whose
struct's field lacks the `required` attribute (through the struct-array
case), and at a concrete module missing its `doc` attribute. -/
theorem load_module_malformed_aborts_witness :
    parse_struct structBadField = none
    ∧ load_module moduleBadField = none
    ∧ getStr moduleNoDoc "doc" = none
    ∧ load_module moduleNoDoc = none :=
  ⟨rfl,
   (load_module_malformed_aborts moduleBadField).2.2.2.2.2.1
     [structBadField] structBadField (List.Mem.head _) rfl rfl,
   rfl,
   (load_module_malformed_aborts moduleNoDoc).2.1 rfl⟩

theorem findLoop_exact_fst (target : String) (sig : Signature)
    (obj : ObjEntry) :
    ∀ (objects : List (Signature × ObjEntry)) (acc : List (String × String)),
    (sig, obj) ∈ objects →
    qualName sig = target →
    (∀ p ∈ objects, qualName p.1 = target → p = (sig, obj)) →
    (findLoop target objects acc).1 = some (refTuple sig obj) := by
  intro objects
  induction objects with
  | nil => intro acc hmem; cases hmem
  | cons p rest ih =>
    intro acc hmem hq huniq
    obtain ⟨psig, pobj⟩ := p
    by_cases hqp : qualName psig = target
    · have heq := huniq (psig, pobj) (List.mem_cons_self _ _) hqp
      rw [Prod.mk.injEq] at heq
      simp [findLoop, hqp, heq.1, heq.2, hq]
    · have hmem' : (sig, obj) ∈ rest := by
        cases hmem with
        | head => exact absurd hq hqp
        | tail _ h => exact h
      have huniq' : ∀ q ∈ rest, qualName q.1 = target → q = (sig, obj) :=
        fun q hqr => huniq q (List.mem_cons_of_mem _ hqr)
      by_cases hname : psig.name = target
      · rw [show findLoop target ((psig, pobj) :: rest) acc
            = findLoop target rest (acc ++ [refTuple psig pobj]) by
          simp [findLoop, hqp, hname]]
        exact ih _ hmem' hq huniq'
      · rw [show findLoop target ((psig, pobj) :: rest) acc
            = findLoop target rest acc by simp [findLoop, hqp, hname]]
        exact ih _ hmem' hq huniq'

theorem findLoop_no_exact (target : String) :
    ∀ (objects : List (Signature × ObjEntry)) (acc : List (String × String)),
    (∀ p ∈ objects, qualName p.1 ≠ target) →
    findLoop target objects acc = (none, acc ++ moduleless target objects) := by
  intro objects
  induction objects with
  | nil => intro acc _; simp [findLoop, moduleless]
  | cons p rest ih =>
    intro acc hno
    obtain ⟨psig, pobj⟩ := p
    have hqp : ¬ qualName psig = target := hno (psig, pobj) (List.mem_cons_self _ _)
    have hno' : ∀ q ∈ rest, qualName q.1 ≠ target :=
      fun q hqr => hno q (List.mem_cons_of_mem _ hqr)
    by_cases hname : psig.name = target
    · rw [show findLoop target ((psig, pobj) :: rest) acc
          = findLoop target rest (acc ++ [refTuple psig pobj]) by
        simp [findLoop, hqp, hname]]
      rw [ih _ hno']
      simp [moduleless, hname]
    · rw [show findLoop target ((psig, pobj) :: rest) acc
          = findLoop target rest acc by simp [findLoop, hqp, hname]]
      rw [ih _ hno']
      simp [moduleless, hname]

/-- C1: for every registry state and qualified target, when a registered
entry's `module + "." + name` equals the target and is the only such
entry, `find_target` returns that entry's document location (with its
display string) and emits no diagnostic — the bare-name fallback is never
consulted. -/
theorem find_target_exact_pass (typ target : String)
    (objects : List (Signature × ObjEntry)) (sig : Signature) (obj : ObjEntry)
    (hm : typ ≠ "module")
    (hmem : (sig, obj) ∈ objects)
    (hq : qualName sig = target)
    (huniq : ∀ p ∈ objects, qualName p.1 = target → p = (sig, obj)) :
    find_target typ target objects = (some (refTuple sig obj), []) := by
  have h1 := findLoop_exact_fst target sig obj objects [] hmem hq huniq
  rcases hfl : findLoop target objects [] with ⟨r1, r2⟩
  rw [hfl] at h1
  simp only at h1
  subst h1
  simp [find_target, if_neg hm, hfl]

/-- C1 (witness): with `A.Foo` and `B.Foo` both registered as structs,
resolving `A.Foo` returns entry A's location and resolving `B.Foo` returns
entry B's location, in both cases with no diagnostic. -/
theorem find_target_exact_pass_witness :
    find_target "struct" "A.Foo"
      [(⟨"struct", "Foo", some "A"⟩, ⟨"docA", "struct", "A.Foo:struct"⟩),
       (⟨"struct", "Foo", some "B"⟩, ⟨"docB", "struct", "B.Foo:struct"⟩)]
      = (some ("docA", "A.Foo:struct"), [])
    ∧ find_target "struct" "B.Foo"
      [(⟨"struct", "Foo", some "A"⟩, ⟨"docA", "struct", "A.Foo:struct"⟩),
       (⟨"struct", "Foo", some "B"⟩, ⟨"docB", "struct", "B.Foo:struct"⟩)]
      = (some ("docB", "B.Foo:struct"), []) :=
  ⟨find_target_exact_pass "struct" "A.Foo" _
    ⟨"struct", "Foo", some "A"⟩ ⟨"docA", "struct", "A.Foo:struct"⟩
    (by decide) (by decide) (by decide) (by decide),
   find_target_exact_pass "struct" "B.Foo" _
    ⟨"struct", "Foo", some "B"⟩ ⟨"docB", "struct", "B.Foo:struct"⟩
    (by decide) (by decide) (by decide) (by decide)⟩

/-- C2: with no exact qualified-name match anywhere in the registry, the
fallback collects every entry whose bare local name equals the target, in
scan order: exactly one candidate resolves to it silently; zero candidates
fail silently; two or more candidates fail with a diagnostic listing every
candidate. -/
theorem find_target_fallback_pass (typ target : String)
    (objects : List (Signature × ObjEntry))
    (hm : typ ≠ "module")
    (hnoexact : ∀ p ∈ objects, qualName p.1 ≠ target) :
    (moduleless target objects = [] →
      find_target typ target objects = (none, []))
    ∧ (∀ c, moduleless target objects = [c] →
      find_target typ target objects = (some c, []))
    ∧ (2 ≤ (moduleless target objects).length →
      find_target typ target objects
        = (none, ambiguousMsg target (moduleless target objects))) := by
  have hfl := findLoop_no_exact target objects [] hnoexact
  rw [List.nil_append] at hfl
  refine ⟨?_, ?_, ?_⟩
  · intro h0
    rw [h0] at hfl
    simp [find_target, if_neg hm, hfl]
  · intro c h1
    rw [h1] at hfl
    simp [find_target, if_neg hm, hfl]
  · intro h2
    rcases hshape : moduleless target objects with _ | ⟨a, _ | ⟨b, ms⟩⟩
    · rw [hshape] at h2; simp at h2
    · rw [hshape] at h2; simp at h2
    · rw [hshape] at hfl
      simp [find_target, if_neg hm, hfl, hshape]

/-- C2 (witness): with `A.Foo` and `B.Foo` registered and the bare target
`Foo`, resolution fails as ambiguous and the diagnostic lists both
candidates. -/
theorem find_target_fallback_pass_witness :
    find_target "struct" "Foo"
      [(⟨"struct", "Foo", some "A"⟩, ⟨"docA", "struct", "A.Foo:struct"⟩),
       (⟨"struct", "Foo", some "B"⟩, ⟨"docB", "struct", "B.Foo:struct"⟩)]
      = (none, ambiguousMsg "Foo"
          (moduleless "Foo"
            [(⟨"struct", "Foo", some "A"⟩, ⟨"docA", "struct", "A.Foo:struct"⟩),
             (⟨"struct", "Foo", some "B"⟩,
               ⟨"docB", "struct", "B.Foo:struct"⟩)])) :=
  (find_target_fallback_pass "struct" "Foo" _
    (by decide) (by decide)).2.2 (by decide)

theorem objInsert_fresh (d : List (Signature × ObjEntry)) (k : Signature)
    (v : ObjEntry) (h : ∀ q ∈ d, q.1 ≠ k) : objInsert d k v = d ++ [(k, v)] := by
  unfold objInsert
  rw [if_neg]
  simp only [List.any_eq_true, not_exists, not_and]
  intro q hq
  simp [h q hq]

/-- C3: registering the same `Signature` twice is harmless: starting from
a state that does not yet know the signature, the first call appends the
id, stores exactly one registry entry for the signature and sets the
signature node's `first` flag (to whether the directive's `names` list was
empty, as the code computes it); the second call with the same signature
is a no-op — same state back, node untouched — and the registry still
holds exactly one entry for the signature. -/
theorem add_target_and_index_idempotent (docname objtype : String)
    (names : List Signature) (name : Signature) (st : BuildState)
    (hid : name ∉ st.docIds)
    (hobj : ∀ p ∈ st.objects, p.1 ≠ name) :
    add_target_and_index docname objtype names name st
      = (⟨st.docIds ++ [name],
          st.objects ++ [(name, ⟨docname, objtype, strSig name⟩)]⟩,
         ⟨true, some names.isEmpty⟩)
    ∧ add_target_and_index docname objtype names name
        (add_target_and_index docname objtype names name st).1
      = ((add_target_and_index docname objtype names name st).1,
         ⟨false, none⟩)
    ∧ (((add_target_and_index docname objtype names name st).1.objects.map
          Prod.fst).count name = 1) := by
  have h1 : add_target_and_index docname objtype names name st
      = (⟨st.docIds ++ [name],
          st.objects ++ [(name, ⟨docname, objtype, strSig name⟩)]⟩,
         ⟨true, some names.isEmpty⟩) := by
    unfold add_target_and_index
    rw [if_neg hid, objInsert_fresh st.objects name _ hobj]
  refine ⟨h1, ?_, ?_⟩
  · rw [h1]
    unfold add_target_and_index
    rw [if_pos (by simp)]
  · rw [h1]
    simp only [List.map_append, List.count_append]
    rw [List.count_eq_zero.mpr ?_, List.map_singleton]
    · simp
    · intro hc
      obtain ⟨p, hp, hpeq⟩ := List.mem_map.mp hc
      exact hobj p hp hpeq

/-- C3 (witness): the double registration at a concrete signature and the
empty initial state. -/
theorem add_target_and_index_idempotent_witness :
    add_target_and_index "doc" "struct" [] ⟨"struct", "Foo", some "A"⟩
        ⟨[], []⟩
      = (⟨[⟨"struct", "Foo", some "A"⟩],
          [(⟨"struct", "Foo", some "A"⟩,
            ⟨"doc", "struct", strSig ⟨"struct", "Foo", some "A"⟩⟩)]⟩,
         ⟨true, some true⟩)
    ∧ add_target_and_index "doc" "struct" [] ⟨"struct", "Foo", some "A"⟩
        (add_target_and_index "doc" "struct" [] ⟨"struct", "Foo", some "A"⟩
          ⟨[], []⟩).1
      = ((add_target_and_index "doc" "struct" [] ⟨"struct", "Foo", some "A"⟩
          ⟨[], []⟩).1, ⟨false, none⟩) := by
  have h := add_target_and_index_idempotent "doc" "struct" []
    ⟨"struct", "Foo", some "A"⟩ ⟨[], []⟩ (by decide) (by decide)
  exact ⟨by rw [h.1]; rfl, h.2.1⟩

/-! ### Lemmas about the index-generation pipeline -/

theorem hasKey_iff (k : Char) (c : List (Char × List Row)) :
    hasKey k c = true ↔ ∃ p ∈ c, p.1 = k := by
  simp [hasKey, List.any_eq_true]

theorem hasKey_eq_keys (k : Char) (c : List (Char × List Row)) :
    hasKey k c = ((c.map Prod.fst).any (fun x => x = k)) := by
  induction c with
  | nil => rfl
  | cons q rest ih => simp [hasKey, List.any_cons] at ih ⊢; rw [ih]

theorem extendAt_nodup_eq (k : Char) (g : List Row) :
    ∀ (c : List (Char × List Row)), (c.map Prod.fst).Nodup →
    extendAt k g c
      = c.map (fun p => if p.1 = k then (p.1, p.2 ++ g) else p) := by
  intro c
  induction c with
  | nil => intro _; rfl
  | cons q rest ih =>
    intro hnd
    rw [List.map_cons, List.nodup_cons] at hnd
    obtain ⟨k', g'⟩ := q
    by_cases hk : k' = k
    · rw [show extendAt k g ((k', g') :: rest) = (k', g' ++ g) :: rest from by
        simp [extendAt, hk]]
      rw [List.map_cons, if_pos hk]
      have hrest : ∀ x ∈ rest, (if x.1 = k
          then (x.1, x.2 ++ g) else x) = x := by
        intro x hx
        rw [if_neg]
        intro hc
        apply hnd.1
        rw [hk, ← hc]
        exact List.mem_map.mpr ⟨x, hx, rfl⟩
      rw [List.map_congr_left hrest, List.map_id']
    · rw [show extendAt k g ((k', g') :: rest)
          = (k', g') :: extendAt k g rest from by simp [extendAt, hk]]
      rw [List.map_cons, if_neg hk, ih hnd.2]

/-- The per-entry state of the content dict after processing a prefix of
the entries: each group holds exactly the processed rows with its key in
scan order, every processed row's key is present, and keys are distinct. -/
def ContentInv (processed : List Row) (c : List (Char × List Row)) : Prop :=
  (∀ p ∈ c, p.2 = processed.filter (fun r => rowKey r == p.1))
  ∧ (∀ r ∈ processed, hasKey (rowKey r) c = true)
  ∧ (c.map Prod.fst).Nodup

theorem dictExtend_step (r : Row) (processed : List Row)
    (c : List (Char × List Row)) (hinv : ContentInv processed c) :
    ContentInv (processed ++ [r]) (dictExtend c (rowKey r) [r]) := by
  obtain ⟨h1, h2, h3⟩ := hinv
  by_cases hk : hasKey (rowKey r) c = true
  · rw [show dictExtend c (rowKey r) [r] = extendAt (rowKey r) [r] c from by
      simp [dictExtend, hk]]
    rw [extendAt_nodup_eq _ _ c h3]
    have hkeys : (c.map (fun p => if p.1 = rowKey r
        then (p.1, p.2 ++ [r]) else p)).map Prod.fst = c.map Prod.fst := by
      rw [List.map_map]
      apply List.map_congr_left
      intro q _
      by_cases h : q.1 = rowKey r <;> simp [h]
    refine ⟨?_, ?_, ?_⟩
    · intro p hp
      obtain ⟨q, hq, hpq⟩ := List.mem_map.mp hp
      by_cases hqk : q.1 = rowKey r
      · rw [if_pos hqk] at hpq
        subst hpq
        simp only
        rw [List.filter_append, ← h1 q hq, hqk]
        simp
      · rw [if_neg hqk] at hpq
        subst hpq
        rw [List.filter_append, ← h1 q hq]
        have : (rowKey r == q.1) = false := by
          rw [beq_eq_false_iff_ne]
          exact fun hc => hqk hc.symm
        simp [this]
    · intro r' hr'
      rw [hasKey_eq_keys, hkeys, ← hasKey_eq_keys]
      rcases List.mem_append.mp hr' with h | h
      · exact h2 r' h
      · have hrr : r' = r := by simpa using h
        rw [hrr]
        exact hk
    · rw [hkeys]
      exact h3
  · have hk' : hasKey (rowKey r) c = false := by
      cases h : hasKey (rowKey r) c
      · rfl
      · exact absurd h hk
    rw [show dictExtend c (rowKey r) [r] = c ++ [(rowKey r, [r])] from by
      simp [dictExtend, hk']]
    have hfresh : ∀ q ∈ c, q.1 ≠ rowKey r := by
      intro q hq hcon
      exact hk ((hasKey_iff _ _).mpr ⟨q, hq, hcon⟩)
    have hnone : processed.filter (fun r' => rowKey r' == rowKey r) = [] := by
      rw [List.filter_eq_nil_iff]
      intro r' hr' hcon
      rw [beq_iff_eq] at hcon
      have := h2 r' hr'
      rw [hcon, hk'] at this
      cases this
    refine ⟨?_, ?_, ?_⟩
    · intro p hp
      rcases List.mem_append.mp hp with h | h
      · rw [List.filter_append, ← h1 p h]
        have : (rowKey r == p.1) = false := by
          rw [beq_eq_false_iff_ne]
          exact fun hc => hfresh p h hc.symm
        simp [this]
      · have : p = (rowKey r, [r]) := by simpa using h
        subst this
        simp only
        rw [List.filter_append, hnone]
        simp
    · intro r' hr'
      rw [hasKey_iff]
      rcases List.mem_append.mp hr' with h | h
      · obtain ⟨q, hq, hqk⟩ := (hasKey_iff _ _).mp (h2 r' h)
        exact ⟨q, List.mem_append_left _ hq, hqk⟩
      · have hrr : r' = r := by simpa using h
        rw [hrr]
        exact ⟨(rowKey r, [r]),
          List.mem_append_right _ (List.mem_singleton_self _), rfl⟩
    · rw [List.map_append]
      simp only [List.map_cons, List.map_nil]
      rw [List.nodup_append]
      refine ⟨h3, List.nodup_singleton _, ?_⟩
      intro x hx
      simp only [List.mem_singleton]
      intro hc
      subst hc
      obtain ⟨q, hq, hqk⟩ := List.mem_map.mp hx
      exact hfresh q hq hqk

theorem extendAt_keys (k : Char) (g : List Row) :
    ∀ (c : List (Char × List Row)),
    (extendAt k g c).map Prod.fst = c.map Prod.fst := by
  intro c
  induction c with
  | nil => rfl
  | cons q rest ih =>
    obtain ⟨k', g'⟩ := q
    by_cases h : k' = k <;> simp [extendAt, h] <;> exact ih

theorem extendAt_extendAt (k : Char) (g1 g2 : List Row) :
    ∀ (c : List (Char × List Row)),
    extendAt k g2 (extendAt k g1 c) = extendAt k (g1 ++ g2) c := by
  intro c
  induction c with
  | nil => rfl
  | cons q rest ih =>
    obtain ⟨k', g'⟩ := q
    by_cases h : k' = k
    · simp [extendAt, h]
    · simp only [extendAt, if_neg h, List.cons.injEq, true_and]
      exact ih

theorem extendAt_fresh_append (k : Char) (g1 g2 : List Row) :
    ∀ (c : List (Char × List Row)), (∀ q ∈ c, q.1 ≠ k) →
    extendAt k g2 (c ++ [(k, g1)]) = c ++ [(k, g1 ++ g2)] := by
  intro c
  induction c with
  | nil => intro _; simp [extendAt]
  | cons q rest ih =>
    intro hf
    obtain ⟨k', g'⟩ := q
    have hne : k' ≠ k := hf (k', g') (List.mem_cons_self _ _)
    simp only [List.cons_append, extendAt, if_neg hne, List.cons.injEq,
      true_and]
    exact ih (fun q hq => hf q (List.mem_cons_of_mem _ hq))

/-- Appending to a key's group can be done row by row. -/
theorem dictExtend_append (k : Char) (g1 g2 : List Row)
    (c : List (Char × List Row)) :
    dictExtend (dictExtend c k g1) k g2 = dictExtend c k (g1 ++ g2) := by
  by_cases hk : hasKey k c = true
  · have hkeys : hasKey k (extendAt k g1 c) = true := by
      rw [hasKey_eq_keys, extendAt_keys, ← hasKey_eq_keys]
      exact hk
    rw [show dictExtend c k g1 = extendAt k g1 c from by simp [dictExtend, hk],
      show dictExtend (extendAt k g1 c) k g2
        = extendAt k g2 (extendAt k g1 c) from by simp [dictExtend, hkeys],
      show dictExtend c k (g1 ++ g2) = extendAt k (g1 ++ g2) c from by
        simp [dictExtend, hk],
      extendAt_extendAt]
  · have hk' : hasKey k c = false := by
      cases h : hasKey k c
      · rfl
      · exact absurd h hk
    have hfresh : ∀ q ∈ c, q.1 ≠ k := by
      intro q hq hcon
      rw [show hasKey k c = true from (hasKey_iff _ _).mpr ⟨q, hq, hcon⟩] at hk'
      cases hk'
    have hkeys : hasKey k (c ++ [(k, g1)]) = true := by
      rw [hasKey_iff]
      exact ⟨(k, g1), List.mem_append_right _ (List.mem_singleton_self _), rfl⟩
    rw [show dictExtend c k g1 = c ++ [(k, g1)] from by simp [dictExtend, hk'],
      show dictExtend (c ++ [(k, g1)]) k g2
        = extendAt k g2 (c ++ [(k, g1)]) from by simp [dictExtend, hkeys],
      show dictExtend c k (g1 ++ g2) = c ++ [(k, g1 ++ g2)] from by
        simp [dictExtend, hk'],
      extendAt_fresh_append k g1 g2 c hfresh]

/-- Folding the dict-merge over the consecutive groups of `groupAux` is
the same as merging the rows one at a time. -/
theorem foldl_groupAux (rest : List Row) :
    ∀ (k : Char) (acc : List Row) (c : List (Char × List Row)),
    (groupAux k acc rest).foldl (fun c p => dictExtend c p.1 p.2) c
      = rest.foldl (fun c r => dictExtend c (rowKey r) [r])
          (dictExtend c k acc.reverse) := by
  induction rest with
  | nil => intro k acc c; simp [groupAux]
  | cons r rs ih =>
    intro k acc c
    by_cases hk : rowKey r = k
    · rw [show groupAux k acc (r :: rs) = groupAux k (r :: acc) rs from by
        simp [groupAux, hk]]
      rw [ih k (r :: acc) c, List.reverse_cons, List.foldl_cons, hk,
        dictExtend_append]
    · rw [show groupAux k acc (r :: rs)
          = (k, acc.reverse) :: groupAux (rowKey r) [r] rs from by
        simp [groupAux, hk]]
      rw [List.foldl_cons, ih (rowKey r) [r] (dictExtend c k acc.reverse),
        List.foldl_cons]
      rfl

/-- The content dict can be computed row by row. -/
theorem buildContent_eq_foldl (rows : List Row) :
    buildContent rows
      = rows.foldl (fun c r => dictExtend c (rowKey r) [r]) [] := by
  cases rows with
  | nil => rfl
  | cons r rs =>
    unfold buildContent groupConsec
    rw [foldl_groupAux rs (rowKey r) [r] [], List.foldl_cons]
    rfl

/-- The content dict after the whole loop satisfies the invariant. -/
theorem buildContent_inv (rows : List Row) :
    ContentInv rows (buildContent rows) := by
  rw [buildContent_eq_foldl]
  have main : ∀ (l processed : List Row) (c : List (Char × List Row)),
      ContentInv processed c →
      ContentInv (processed ++ l)
        (l.foldl (fun c r => dictExtend c (rowKey r) [r]) c) := by
    intro l
    induction l with
    | nil => intro processed c h; simpa using h
    | cons r rs ih =>
      intro processed c h
      rw [List.foldl_cons]
      have := ih (processed ++ [r]) _ (dictExtend_step r processed c h)
      rwa [List.append_assoc, List.singleton_append] at this
  have h0 : ContentInv [] [] := by
    refine ⟨?_, ?_, ?_⟩
    · intro p hp; cases hp
    · intro r hr; cases hr
    · exact List.nodup_nil
  simpa using main rows [] [] h0

theorem insSorted_perm (p : Char × List Row) :
    ∀ (l : List (Char × List Row)), List.Perm (insSorted p l) (p :: l) := by
  intro l
  induction l with
  | nil => exact List.Perm.refl _
  | cons q rest ih =>
    by_cases h : p.1 ≤ q.1
    · rw [show insSorted p (q :: rest) = p :: q :: rest from by
        simp [insSorted, h]]
    · rw [show insSorted p (q :: rest) = q :: insSorted p rest from by
        simp [insSorted, h]]
      exact (List.Perm.cons q ih).trans (List.Perm.swap p q rest)

theorem sortContent_perm :
    ∀ (l : List (Char × List Row)), List.Perm (sortContent l) l := by
  intro l
  induction l with
  | nil => exact List.Perm.refl _
  | cons p rest ih =>
    exact (insSorted_perm p (sortContent rest)).trans (List.Perm.cons p ih)

theorem insSorted_sorted (p : Char × List Row) :
    ∀ (l : List (Char × List Row)),
    l.Pairwise (fun a b => a.1 ≤ b.1) →
    (insSorted p l).Pairwise (fun a b => a.1 ≤ b.1) := by
  intro l
  induction l with
  | nil => intro _; exact List.pairwise_singleton _ _
  | cons q rest ih =>
    intro hs
    rw [List.pairwise_cons] at hs
    by_cases h : p.1 ≤ q.1
    · rw [show insSorted p (q :: rest) = p :: q :: rest from by
        simp [insSorted, h]]
      rw [List.pairwise_cons]
      refine ⟨?_, List.pairwise_cons.mpr hs⟩
      intro b hb
      rcases List.mem_cons.mp hb with hb | hb
      · rw [hb]; exact h
      · exact le_trans h (hs.1 b hb)
    · rw [show insSorted p (q :: rest) = q :: insSorted p rest from by
        simp [insSorted, h]]
      rw [List.pairwise_cons]
      refine ⟨?_, ih hs.2⟩
      intro b hb
      rcases List.mem_cons.mp ((insSorted_perm p rest).mem_iff.mp hb)
        with hb' | hb'
      · rw [hb']; exact le_of_not_le h
      · exact hs.1 b hb'

theorem sortContent_sorted :
    ∀ (l : List (Char × List Row)),
    (sortContent l).Pairwise (fun a b => a.1 ≤ b.1) := by
  intro l
  induction l with
  | nil => exact List.Pairwise.nil
  | cons p rest ih => exact insSorted_sorted p (sortContent rest) ih

/-- C8: for every sequence of registry entries (with nonempty names),
index generation groups the entries by the upper-cased first character of
their name — each produced group holds exactly the entries with its key,
in registry scan order, even when they are not adjacent in the input —
every entry lands in some group, and the groups are presented sorted
strictly increasing by key character. -/
theorem generate_groups_sorted (rows : List Row)
    (h : ∀ r ∈ rows, r.name ≠ "") :
    ∃ L, generate rows = some L
      ∧ (L.map Prod.fst).Pairwise (· < ·)
      ∧ (∀ p ∈ L, p.2 = rows.filter (fun r => rowKey r == p.1))
      ∧ (∀ r ∈ rows, ∃ p ∈ L, p.1 = rowKey r) := by
  obtain ⟨h1, h2, h3⟩ := buildContent_inv rows
  have hperm := sortContent_perm (buildContent rows)
  refine ⟨sortContent (buildContent rows), ?_, ?_, ?_, ?_⟩
  · unfold generate
    rw [if_pos]
    rw [List.all_eq_true]
    intro r hr
    cases hc : r.name.isEmpty
    · rfl
    · exact absurd ((String.isEmpty_iff r.name).mp hc) (h r hr)
  · have hnd : ((sortContent (buildContent rows)).map Prod.fst).Nodup :=
      ((hperm.map Prod.fst).nodup_iff).mpr h3
    have hle : ((sortContent (buildContent rows)).map Prod.fst).Pairwise
        (· ≤ ·) :=
      List.pairwise_map.mpr (sortContent_sorted (buildContent rows))
    exact (hle.and hnd).imp (fun hab => lt_of_le_of_ne hab.1 hab.2)
  · intro p hp
    exact h1 p (hperm.mem_iff.mp hp)
  · intro r hr
    obtain ⟨q, hq, hqk⟩ := (hasKey_iff _ _).mp (h2 r hr)
    exact ⟨q, hperm.mem_iff.mpr hq, hqk⟩

/-- The registry rows `apple`, `Banana`, `avocado` of the spec's example. -/
def exRows : List Row :=
  [⟨"apple", "d1", "s1", "t1"⟩, ⟨"Banana", "d2", "s2", "t2"⟩,
   ⟨"avocado", "d3", "s3", "t3"⟩]

/-- C8 (witness): the theorem applied to the `apple`, `Banana`, `avocado`
rows, together with the evaluated result: group `A` holds `apple` and
`avocado` in input order, group `B` holds `Banana`, groups sorted. -/
theorem generate_groups_sorted_witness :
    (∀ r ∈ exRows, r.name ≠ "")
    ∧ (∃ L, generate exRows = some L
        ∧ (L.map Prod.fst).Pairwise (· < ·)
        ∧ (∀ p ∈ L, p.2 = exRows.filter (fun r => rowKey r == p.1))
        ∧ (∀ r ∈ exRows, ∃ p ∈ L, p.1 = rowKey r))
    ∧ generate exRows = some
        [('A', [⟨"apple", "d1", "s1", "t1"⟩, ⟨"avocado", "d3", "s3", "t3"⟩]),
         ('B', [⟨"Banana", "d2", "s2", "t2"⟩])] :=
  ⟨by decide, generate_groups_sorted exRows (by decide), by decide⟩

end SphinxThrift
